import Mathlib

/-!
Shallow embedding of the hex-viewer core (src/app.rs, src/event.rs,
src/utils.rs, src/parsers/mod.rs, src/parsers/generic.rs).

Bytes are modelled as `Nat` (the source uses `u8`; every byte produced by
the program is `< 256`).  Strings under construction (the input buffer,
span texts) are modelled as `List Char`; fixed message strings are Lean
string literals.  File I/O is modelled by carrying the underlying file
contents inside the `Lazy` variant together with two error flags that
stand for a failing seek or read.
-/

/-- Value of one hexadecimal digit character, as accepted by the `hex`
crate and by `usize::from_str_radix(_, 16)`: `0-9`, `a-f`, `A-F`. -/
def hexDigitVal (c : Char) : Option Nat :=
  if '0' ≤ c ∧ c ≤ '9' then some (c.toNat - 48)
  else if 'a' ≤ c ∧ c ≤ 'f' then some (c.toNat - 87)
  else if 'A' ≤ c ∧ c ≤ 'F' then some (c.toNat - 55)
  else none

/-- Model of `hex::decode` on a character list: fails on an odd number of
characters or on any non-hex-digit character, otherwise produces one byte
per digit pair. -/
def hexDecode : List Char → Option (List Nat)
  | [] => some []
  | [_] => none
  | c1 :: c2 :: rest =>
    match hexDigitVal c1, hexDigitVal c2, hexDecode rest with
    | some h, some l, some tl => some ((16 * h + l) :: tl)
    | _, _, _ => none

/-- Model of `usize::from_str_radix(s, 16)` (64-bit `usize`): an optional
leading plus sign, then one or more hex digits; overflow past `2 ^ 64 - 1`
is an error. -/
def parseHexNat (s : List Char) : Option Nat :=
  let ds := match s with
    | '+' :: rest => rest
    | other => other
  match ds with
  | [] => none
  | _ :: _ =>
    match ds.foldl (fun acc c =>
        match acc, hexDigitVal c with
        | some a, some d => some (16 * a + d)
        | _, _ => none) (some 0) with
    | some v => if v < 2 ^ 64 then some v else none
    | none => none

/-- UTF-8 encoding of one character (model of `str::as_bytes` per char). -/
def utf8Bytes (c : Char) : List Nat :=
  let n := c.toNat
  if n < 128 then [n]
  else if n < 2048 then [192 + n / 64, 128 + n % 64]
  else if n < 65536 then [224 + n / 4096, 128 + n / 64 % 64, 128 + n % 64]
  else [240 + n / 262144, 128 + n / 4096 % 64, 128 + n / 64 % 64, 128 + n % 64]

/-- Byte sequence of a character list (model of `String::as_bytes`). -/
def strBytes (s : List Char) : List Nat :=
  (s.map utf8Bytes).flatten

/-- The pattern `pat` occurs in `data` at position `i`. -/
def matchAt (data pat : List Nat) (i : Nat) : Bool :=
  decide ((data.drop i).take pat.length = pat)

/-- Model of `twoway::find_bytes(haystack, needle)`: index of the leftmost
occurrence of `needle` in `haystack`, if any. -/
def findBytes (haystack needle : List Nat) : Option Nat :=
  if matchAt haystack needle 0 then some 0
  else
    match haystack with
    | [] => none
    | _ :: t => (findBytes t needle).map (· + 1)

/-- The search loop of `App::perform_search` (src/app.rs lines 123-133 and
146-156): repeatedly find the leftmost match at or after `pos`, record
`[start, start + pat.length)`, and resume at the match end.  `fuel` makes
the recursion structural; `data.length + 1` is enough fuel whenever the
pattern is non-empty (the only case the source can reach). -/
def searchLoop (data pat : List Nat) : Nat → Nat → List (Nat × Nat)
  | 0, _ => []
  | fuel + 1, pos =>
    if pos + pat.length ≤ data.length then
      match findBytes (data.drop pos) pat with
      | some idx =>
          (pos + idx, pos + idx + pat.length) ::
            searchLoop data pat fuel (pos + idx + pat.length)
      | none => []
    else []

/-- All matches recorded by one run of the search loop of
`App::perform_search`, started at position 0. -/
def findAll (data pat : List Nat) : List (Nat × Nat) :=
  searchLoop data pat (data.length + 1) 0

/-- Model of `utils::read_file_chunk`: seek to `offset * bytes_per_line`,
read up to `bytes_per_line * lines` bytes, return the bytes actually read;
a seek or read error yields the empty vector. -/
def readFileChunk (contents : List Nat) (seekErr readErr : Bool)
    (offset bytesPerLine lines : Nat) : List Nat :=
  let seekPosition := offset * bytesPerLine
  if seekErr then []
  else if readErr then []
  else (contents.drop seekPosition).take (bytesPerLine * lines)

/-- Model of `parsers::ParsedFile`.  The `Lazy` variant carries the
underlying file contents plus flags injecting a seek or read failure. -/
inductive ParsedFile
  | Generic (data : List Nat)
  | Lazy (contents : List Nat) (seekErr readErr : Bool)
deriving DecidableEq

/-- Model of `ParsedFile::data` (src/parsers/mod.rs lines 22-28): the
`Lazy` variant returns the empty slice. -/
def ParsedFile.data : ParsedFile → List Nat
  | ParsedFile.Generic d => d
  | ParsedFile.Lazy _ _ _ => []

/-- Model of `ParsedFile::get_chunk` (src/parsers/mod.rs lines 31-45). -/
def ParsedFile.get_chunk : ParsedFile → Nat → Nat → Nat → List Nat
  | ParsedFile.Generic d, offset, bytesPerLine, lines =>
      let start := offset * bytesPerLine
      let e := min (start + bytesPerLine * lines) d.length
      if start ≥ d.length then [] else (d.drop start).take (e - start)
  | ParsedFile.Lazy c se re, offset, bytesPerLine, lines =>
      readFileChunk c se re offset bytesPerLine lines

/-- The bytes of `l` in the half-open interval `[s, e)`. -/
def byteSlice (l : List Nat) (s e : Nat) : List Nat :=
  (l.drop s).take (e - s)

/-- Model of `app::AppMode`. -/
inductive AppMode
  | Normal
  | Search
  | Goto
  | Help
deriving DecidableEq

/-- Model of `app::SearchType`. -/
inductive SearchType
  | Ascii
  | Hex
deriving DecidableEq

/-- Model of `app::Theme`. -/
inductive Theme
  | Light
  | Dark
deriving DecidableEq

/-- Model of the application state `app::App`. -/
structure App where
  running : Bool
  file_path : String
  parsed_file : ParsedFile
  scroll_offset : Nat
  bytes_per_line : Nat
  mode : AppMode
  input_buffer : List Char
  search_results : List (Nat × Nat)
  search_type : SearchType
  file_size : Nat
  theme : Theme
  message : Option String
deriving DecidableEq

/-- Model of `App::scroll_up`. -/
def App.scroll_up (a : App) : App :=
  if a.scroll_offset > 0 then { a with scroll_offset := a.scroll_offset - 1 } else a

/-- Model of `App::max_scroll_offset`. -/
def App.max_scroll_offset (a : App) : Nat :=
  let total_lines := (a.file_size + a.bytes_per_line - 1) / a.bytes_per_line
  if total_lines = 0 then 0 else total_lines - 1

/-- Model of `App::scroll_down`. -/
def App.scroll_down (a : App) : App :=
  if a.scroll_offset < a.max_scroll_offset then
    { a with scroll_offset := a.scroll_offset + 1 }
  else a

/-- Model of `App::clamp_scroll_offset`. -/
def App.clamp_scroll_offset (a : App) : App :=
  if a.scroll_offset > a.max_scroll_offset then
    { a with scroll_offset := a.max_scroll_offset }
  else a

/-- Model of `App::perform_search` (src/app.rs lines 110-169), including
the trailing no-matches check, which the `Err` arm of the hex branch falls
through to (only the two empty-query arms return early in the source). -/
def App.perform_search (a : App) : App :=
  let a0 := { a with search_results := ([] : List (Nat × Nat)) }
  if a0.input_buffer.isEmpty then
    { a0 with message := some "Search query cannot be empty." }
  else
    match a0.search_type with
    | SearchType.Ascii =>
        let queryBytes := strBytes a0.input_buffer
        let a1 := { a0 with search_results := findAll a0.parsed_file.data queryBytes }
        if a1.search_results.isEmpty then
          { a1 with message := some "No matches found for the search query." }
        else a1
    | SearchType.Hex =>
        let query := a0.input_buffer.filter (fun c => c ≠ ' ')
        if query.isEmpty then
          { a0 with message := some "Hex search query cannot be empty." }
        else
          match hexDecode query with
          | some queryBytes =>
              let a1 := { a0 with search_results := findAll a0.parsed_file.data queryBytes }
              if a1.search_results.isEmpty then
                { a1 with message := some "No matches found for the search query." }
              else a1
          | none =>
              let a1 := { a0 with message := some "Invalid hexadecimal input for search." }
              if a1.search_results.isEmpty then
                { a1 with message := some "No matches found for the search query." }
              else a1

/-- Model of `App::jump_to_offset` (src/app.rs lines 172-180). -/
def App.jump_to_offset (a : App) : App :=
  match parseHexNat a.input_buffer with
  | some offset =>
      let max_offset := a.max_scroll_offset
      let target_line := offset / a.bytes_per_line
      { a with scroll_offset := min target_line max_offset }
  | none => { a with message := some "Invalid hexadecimal offset input." }

/-- Model of `App::toggle_theme`. -/
def App.toggle_theme (a : App) : App :=
  { a with theme := match a.theme with
      | Theme.Light => Theme.Dark
      | Theme.Dark => Theme.Light }

/-- Model of `App::get_display_data`. -/
def App.get_display_data (a : App) (visible_height : Nat) : List Nat :=
  a.parsed_file.get_chunk a.scroll_offset a.bytes_per_line visible_height

/-- Model of the key codes `event.rs` inspects; `Other` stands for every
key code the source catches with a wildcard arm. -/
inductive KeyCode
  | Char (c : Char)
  | Up
  | Down
  | Enter
  | Backspace
  | Esc
  | Other
deriving DecidableEq

/-- Model of the mouse event kinds `event.rs` inspects. -/
inductive MouseKind
  | ScrollUp
  | ScrollDown
  | OtherMouse
deriving DecidableEq

/-- Model of the crossterm events `event.rs` inspects. -/
inductive Event
  | Key (code : KeyCode)
  | Mouse (kind : MouseKind)
  | OtherEvent
deriving DecidableEq

/-- Model of `event::handle_event` (src/event.rs): returns the boolean
the source returns, paired with the updated application state. -/
def handle_event (ev : Event) (a : App) : Bool × App :=
  match a.mode with
  | AppMode.Normal =>
    match ev with
    | Event.Key code =>
      match code with
      | KeyCode.Char 'q' => (false, { a with running := false })
      | KeyCode.Up => (true, { a.scroll_up with message := none })
      | KeyCode.Down => (true, { a.scroll_down with message := none })
      | KeyCode.Char '/' =>
          (true, { a with mode := AppMode.Search, search_type := SearchType.Ascii,
                          input_buffer := [], message := none })
      | KeyCode.Char ':' =>
          (true, { a with mode := AppMode.Goto, input_buffer := [], message := none })
      | KeyCode.Char 'x' =>
          (true, { a with mode := AppMode.Search, search_type := SearchType.Hex,
                          input_buffer := [], message := none })
      | KeyCode.Char 'h' => (true, { a with mode := AppMode.Help, message := none })
      | KeyCode.Char 't' => (true, { a.toggle_theme with message := none })
      | _ => (true, a)
    | Event.Mouse kind =>
      match kind with
      | MouseKind.ScrollUp => (true, { a.scroll_up with message := none })
      | MouseKind.ScrollDown => (true, { a.scroll_down with message := none })
      | _ => (true, a)
    | _ => (true, a)
  | AppMode.Search | AppMode.Goto =>
    match ev with
    | Event.Key code =>
      match code with
      | KeyCode.Enter =>
          let a1 := match a.mode with
            | AppMode.Search =>
                if a.input_buffer.isEmpty then a else a.perform_search
            | AppMode.Goto =>
                if a.input_buffer.isEmpty then a else a.jump_to_offset
            | _ => a
          (true, { a1 with mode := AppMode.Normal })
      | KeyCode.Char c => (true, { a with input_buffer := a.input_buffer ++ [c] })
      | KeyCode.Backspace => (true, { a with input_buffer := a.input_buffer.dropLast })
      | KeyCode.Esc => (true, { a with mode := AppMode.Normal, message := none })
      | _ => (true, a)
    | _ => (true, a)
  | AppMode.Help =>
    match ev with
    | Event.Key code =>
      match code with
      | KeyCode.Char 'h' => (true, { a with mode := AppMode.Normal, message := none })
      | KeyCode.Esc => (true, { a with mode := AppMode.Normal, message := none })
      | _ => (true, a)
    | _ => (true, a)

/-- Model of `ratatui::style::Color` restricted to the colors the source
uses. -/
inductive Color
  | Blue
  | Yellow
  | Black
  | Cyan
  | DarkGray
  | Green
deriving DecidableEq

/-- Model of `ratatui::style::Style`: optional foreground and background
colors (`Style::default()` has both unset). -/
structure Style where
  fg : Option Color := none
  bg : Option Color := none
deriving DecidableEq

/-- Model of `ratatui::text::Span`: a styled piece of text, the text as a
character list. -/
structure Span where
  text : List Char
  style : Style
deriving DecidableEq

/-- Lowercase hexadecimal digit character for a value below 16. -/
def hexDigitChar (n : Nat) : Char :=
  if n < 10 then Char.ofNat (48 + n) else Char.ofNat (87 + n)

/-- Hex digits of `n` accumulated most-significant first; structural in
the fuel, and `n` itself is always enough fuel. -/
def hexDigitsCore : Nat → Nat → List Char → List Char
  | 0, _, acc => acc
  | _, 0, acc => acc
  | fuel + 1, n, acc => hexDigitsCore fuel (n / 16) (hexDigitChar (n % 16) :: acc)

/-- Lowercase hexadecimal digits of `n` (digits of 0 are "0"). -/
def natToHex (n : Nat) : List Char :=
  if n = 0 then ['0'] else hexDigitsCore n n []

/-- Zero-padding to width `w`, as in the `{:0wx}` format specifiers. -/
def padHex (w : Nat) (s : List Char) : List Char :=
  List.replicate (w - s.length) '0' ++ s

/-- Model of `utils::byte_to_displayable`: printable ASCII (graphic or
space) renders as itself, everything else as a dot. -/
def byteToDisplayable (b : Nat) : Char :=
  if (33 ≤ b ∧ b ≤ 126) ∨ b = 32 then Char.ofNat b else '.'

/-- A byte at global index `g` is highlighted when some search-result
range contains it (model of `Range::contains` over `search_results`). -/
def isMatch (res : List (Nat × Nat)) (g : Nat) : Bool :=
  res.any (fun r => decide (r.1 ≤ g ∧ g < r.2))

/-- The hex-column span for the byte `b` at global index `g`
(src/utils.rs lines 32-41). -/
def hexSpanOf (res : List (Nat × Nat)) (g b : Nat) : Span :=
  { text := padHex 2 (natToHex b) ++ [' '],
    style := if isMatch res g then { bg := some Color.Yellow, fg := some Color.Black }
             else { fg := some Color.Cyan } }

/-- The ASCII-column span for the byte `b` at global index `g`
(src/utils.rs lines 51-63). -/
def asciiSpanOf (res : List (Nat × Nat)) (g b : Nat) : Span :=
  let c := byteToDisplayable b
  { text := [c],
    style := if isMatch res g then { bg := some Color.Yellow, fg := some Color.Black }
             else if c = '.' then { fg := some Color.DarkGray }
             else { fg := some Color.Green } }

/-- Spans of one chunk column, one per byte, indexed from the row address
`addr`. -/
def columnSpans (f : List (Nat × Nat) → Nat → Nat → Span) (res : List (Nat × Nat))
    (addr : Nat) : List Nat → List Span
  | [] => []
  | b :: bs => f res addr b :: columnSpans f res (addr + 1) bs

/-- One display row of `utils::format_hex_dump` for the chunk starting at
absolute address `addr`: address span, hex spans, padding for an
incomplete chunk, a two-space gutter, then the ASCII spans. -/
def formatRow (bytesPerLine : Nat) (res : List (Nat × Nat)) (addr : Nat)
    (chunk : List Nat) : List Span :=
  Span.mk (padHex 8 (natToHex addr) ++ [':', ' ']) { fg := some Color.Blue } ::
  (columnSpans hexSpanOf res addr chunk ++
   (if chunk.length < bytesPerLine then
      [Span.mk (List.replicate (3 * (bytesPerLine - chunk.length)) ' ') {}]
    else []) ++
   [Span.mk [' ', ' '] {}] ++
   columnSpans asciiSpanOf res addr chunk)

/-- Model of `slice::chunks`: split into pieces of `w` elements, the last
piece possibly shorter.  Structural in the fuel; `l.length` is enough
fuel whenever `w > 0` (the source panics on `w = 0`). -/
def chunkListAux (w : Nat) : Nat → List Nat → List (List Nat)
  | _, [] => []
  | 0, l => [l]
  | fuel + 1, l => l.take w :: chunkListAux w fuel (l.drop w)

/-- The chunks of `l` of width `w` (model of `l.chunks(w)` for `w > 0`). -/
def chunkList (w : Nat) (l : List Nat) : List (List Nat) :=
  chunkListAux w l.length l

/-- Rows for the listed chunks, numbering them from row index `i`. -/
def rowsFrom (bytesPerLine : Nat) (res : List (Nat × Nat)) (startAddr : Nat) :
    Nat → List (List Nat) → List (List Span)
  | _, [] => []
  | i, c :: cs =>
      formatRow bytesPerLine res (startAddr + i * bytesPerLine) c ::
        rowsFrom bytesPerLine res startAddr (i + 1) cs

/-- Model of `utils::format_hex_dump` (src/utils.rs lines 11-69): one row
per `bytes_per_line`-sized chunk of `data`, at most `lines` rows
(`enumerate().take(lines)` in the source), addresses starting at
`scroll_offset * bytes_per_line`. -/
def formatHexDump (data : List Nat) (scroll_offset lines bytesPerLine : Nat)
    (search_results : List (Nat × Nat)) : List (List Span) :=
  rowsFrom bytesPerLine search_results (scroll_offset * bytesPerLine) 0
    ((chunkList bytesPerLine data).take lines)

/-- The full text of a rendered row, spans concatenated. -/
def lineText (row : List Span) : List Char :=
  (row.map Span.text).flatten

/-- A concrete in-memory application state: file bytes "AAAA", ASCII query
"AAAA", default remaining fields.  Used as a concrete test vehicle. -/
def appInMemory : App :=
  { running := true, file_path := "f", parsed_file := ParsedFile.Generic [65, 65, 65, 65],
    scroll_offset := 0, bytes_per_line := 16, mode := AppMode.Normal,
    input_buffer := ['A', 'A', 'A', 'A'], search_results := [],
    search_type := SearchType.Ascii, file_size := 4, theme := Theme.Dark, message := none }

/-- The same file content held as a windowed (`Lazy`) source with no
injected I/O errors. -/
def appWindowed : App :=
  { appInMemory with parsed_file := ParsedFile.Lazy [65, 65, 65, 65] false false }

/-- A hex-mode search state whose query "4" has an odd digit count, with a
leftover match set from a previous search. -/
def appHexOdd : App :=
  { appInMemory with
    search_type := SearchType.Hex
    input_buffer := ['4']
    search_results := [(0, 1)] }

/-- A state sitting in Search mode with an empty input buffer and a
leftover match set from a previous search. -/
def appSearchEnterEmpty : App :=
  { appInMemory with
    mode := AppMode.Search
    input_buffer := []
    search_results := [(0, 1)] }

/-- A state with a Goto input buffer "10" over a 100-byte file. -/
def appJump : App :=
  { appInMemory with input_buffer := ['1', '0'], file_size := 100 }

/-! ### Lemmas about the pattern matcher -/

theorem matchAt_iff {d p : List Nat} {i : Nat} :
    matchAt d p i = true ↔ (d.drop i).take p.length = p := by
  simp [matchAt]

theorem matchAt_cons {a : Nat} {t p : List Nat} {j : Nat} :
    matchAt (a :: t) p (j + 1) = matchAt t p j := by
  simp [matchAt]

theorem matchAt_nil {p : List Nat} {j : Nat} :
    matchAt ([] : List Nat) p j = matchAt ([] : List Nat) p 0 := by
  simp [matchAt]

theorem matchAt_drop {d p : List Nat} {pos j : Nat} :
    matchAt (d.drop pos) p j = matchAt d p (pos + j) := by
  simp [matchAt, List.drop_drop, Nat.add_comm]

theorem matchAt_bound {d p : List Nat} {s : Nat} (hp : p ≠ [])
    (hm : matchAt d p s = true) : s + p.length ≤ d.length := by
  have h := matchAt_iff.mp hm
  have hlen := congrArg List.length h
  simp [List.length_take, List.length_drop] at hlen
  have hp1 : 1 ≤ p.length := by
    cases p with
    | nil => exact absurd rfl hp
    | cons _ _ => simp
  omega

theorem findBytes_some_match : ∀ {h n : List Nat} {i : Nat},
    findBytes h n = some i → matchAt h n i = true := by
  intro h
  induction h with
  | nil =>
    intro n i e
    rw [findBytes] at e
    split at e
    · cases e
      assumption
    · simp at e
  | cons a t ih =>
    intro n i e
    rw [findBytes] at e
    split at e
    · cases e
      assumption
    · simp only [Option.map_eq_some'] at e
      obtain ⟨j, hj, rfl⟩ := e
      rw [matchAt_cons]
      exact ih hj

theorem findBytes_some_least : ∀ {h n : List Nat} {i : Nat},
    findBytes h n = some i → ∀ j < i, matchAt h n j = false := by
  intro h
  induction h with
  | nil =>
    intro n i e j hj
    rw [findBytes] at e
    split at e
    · cases e
      omega
    · simp at e
  | cons a t ih =>
    intro n i e j hj
    rw [findBytes] at e
    split at e
    · cases e
      omega
    · rename_i hm0
      simp only [Option.map_eq_some'] at e
      obtain ⟨k, hk, rfl⟩ := e
      cases j with
      | zero => simpa using hm0
      | succ j =>
        rw [matchAt_cons]
        exact ih hk j (by omega)

theorem findBytes_none : ∀ {h n : List Nat},
    findBytes h n = none → ∀ j, matchAt h n j = false := by
  intro h
  induction h with
  | nil =>
    intro n e j
    rw [findBytes] at e
    split at e
    · simp at e
    · rw [matchAt_nil]
      simp only [Bool.not_eq_true] at *
      assumption
  | cons a t ih =>
    intro n e j
    rw [findBytes] at e
    split at e
    · simp at e
    · rename_i hm0
      simp only [Option.map_eq_none'] at e
      cases j with
      | zero => simpa using hm0
      | succ j =>
        rw [matchAt_cons]
        exact ih e j

theorem findBytes_le_of_match {h n : List Nat} {j : Nat}
    (hm : matchAt h n j = true) : ∃ i, findBytes h n = some i ∧ i ≤ j := by
  cases e : findBytes h n with
  | none =>
    have := findBytes_none e j
    rw [hm] at this
    cases this
  | some i =>
    refine ⟨i, rfl, ?_⟩
    by_contra hlt
    push_neg at hlt
    have := findBytes_some_least e j hlt
    rw [hm] at this
    cases this

theorem searchLoop_mem {data pat : List Nat} : ∀ (fuel pos : Nat) (r : Nat × Nat),
    r ∈ searchLoop data pat fuel pos →
    pos ≤ r.1 ∧ r.2 = r.1 + pat.length ∧ matchAt data pat r.1 = true := by
  intro fuel
  induction fuel with
  | zero =>
    intro pos r hr
    simp [searchLoop] at hr
  | succ fuel ih =>
    intro pos r hr
    rw [searchLoop] at hr
    split at hr
    · cases e : findBytes (data.drop pos) pat with
      | some idx =>
        rw [e] at hr
        rcases List.mem_cons.mp hr with hh | ht
        · subst hh
          refine ⟨Nat.le_add_right _ _, rfl, ?_⟩
          have := findBytes_some_match e
          rwa [matchAt_drop] at this
        · have := ih _ r ht
          exact ⟨by omega, this.2⟩
      | none =>
        rw [e] at hr
        simp at hr
    · simp at hr

theorem searchLoop_pairwise {data pat : List Nat} : ∀ (fuel pos : Nat),
    List.Pairwise (fun a b : Nat × Nat => a.2 ≤ b.1) (searchLoop data pat fuel pos) := by
  intro fuel
  induction fuel with
  | zero =>
    intro pos
    simp [searchLoop]
  | succ fuel ih =>
    intro pos
    rw [searchLoop]
    split
    · cases e : findBytes (data.drop pos) pat with
      | some idx =>
        refine List.Pairwise.cons ?_ (ih _)
        intro r hr
        exact (searchLoop_mem _ _ r hr).1
      | none => simp
    · simp

theorem searchLoop_cover {data pat : List Nat} (hp : pat ≠ []) :
    ∀ (fuel pos p : Nat), data.length + 1 ≤ fuel + pos → pos ≤ p →
    matchAt data pat p = true →
    ∃ r ∈ searchLoop data pat fuel pos, r.1 ≤ p ∧ p < r.2 := by
  intro fuel
  induction fuel with
  | zero =>
    intro pos p hfuel hpos hm
    have := matchAt_bound hp hm
    have hp1 : 1 ≤ pat.length := by
      cases pat with
      | nil => exact absurd rfl hp
      | cons _ _ => simp
    omega
  | succ fuel ih =>
    intro pos p hfuel hpos hm
    have hbound := matchAt_bound hp hm
    have hp1 : 1 ≤ pat.length := by
      cases pat with
      | nil => exact absurd rfl hp
      | cons _ _ => simp
    have hcond : pos + pat.length ≤ data.length := by omega
    have hmsub : matchAt (data.drop pos) pat (p - pos) = true := by
      rw [matchAt_drop]
      have : pos + (p - pos) = p := by omega
      rwa [this]
    obtain ⟨idx, e, hidx⟩ := findBytes_le_of_match hmsub
    rw [searchLoop, if_pos hcond, e]
    by_cases hcase : p < pos + idx + pat.length
    · exact ⟨(pos + idx, pos + idx + pat.length), List.mem_cons_self _ _, by omega, hcase⟩
    · push_neg at hcase
      obtain ⟨r, hr, hle, hlt⟩ :=
        ih (pos + idx + pat.length) p (by omega) hcase hm
      exact ⟨r, List.mem_cons_of_mem _ hr, hle, hlt⟩

/-! ### Helper lemmas about the viewport -/

theorem max_scroll_offset_eq (a : App) :
    a.max_scroll_offset = (a.file_size + a.bytes_per_line - 1) / a.bytes_per_line - 1 := by
  simp only [App.max_scroll_offset]
  split <;> omega

theorem max_scroll_offset_lt_of_lt_size (a : App) (hW : 0 < a.bytes_per_line)
    {offset : Nat} (h : offset < a.file_size) :
    offset / a.bytes_per_line ≤ a.max_scroll_offset := by
  rw [max_scroll_offset_eq]
  have h1 : offset / a.bytes_per_line ≤ (a.file_size - 1) / a.bytes_per_line :=
    Nat.div_le_div_right (by omega)
  have h2 : (a.file_size - 1 + a.bytes_per_line) / a.bytes_per_line =
      (a.file_size - 1) / a.bytes_per_line + 1 := Nat.add_div_right _ hW
  have h3 : a.file_size - 1 + a.bytes_per_line = a.file_size + a.bytes_per_line - 1 := by
    omega
  rw [h3] at h2
  omega

theorem max_scroll_offset_le_of_size_le (a : App) (hW : 0 < a.bytes_per_line)
    {offset : Nat} (h : a.file_size ≤ offset) :
    a.max_scroll_offset ≤ offset / a.bytes_per_line := by
  rw [max_scroll_offset_eq]
  rcases Nat.eq_zero_or_pos a.file_size with h0 | h0
  · rw [h0]
    have hz : (0 + a.bytes_per_line - 1) / a.bytes_per_line = 0 :=
      Nat.div_eq_of_lt (by omega)
    rw [hz]
    simp
  · have h1 : (a.file_size - 1) / a.bytes_per_line ≤ offset / a.bytes_per_line :=
      Nat.div_le_div_right (by omega)
    have h2 : (a.file_size - 1 + a.bytes_per_line) / a.bytes_per_line =
        (a.file_size - 1) / a.bytes_per_line + 1 := Nat.add_div_right _ hW
    have h3 : a.file_size - 1 + a.bytes_per_line = a.file_size + a.bytes_per_line - 1 := by
      omega
    rw [h3] at h2
    rw [h2]
    simpa using h1

/-! ### Helper lemmas about the formatter -/

set_option maxRecDepth 4000 in
theorem natToHex_len_le_two : ∀ b < 256, (natToHex b).length ≤ 2 := by decide

theorem padHex_len {w : Nat} {s : List Char} (h : s.length ≤ w) :
    (padHex w s).length = w := by
  simp [padHex]
  omega

theorem lineText_append (l1 l2 : List Span) :
    lineText (l1 ++ l2) = lineText l1 ++ lineText l2 := by
  simp [lineText]

theorem hexSpanOf_text_len {res : List (Nat × Nat)} {g b : Nat} (hb : b < 256) :
    (hexSpanOf res g b).text.length = 3 := by
  simp [hexSpanOf, padHex_len (natToHex_len_le_two b hb)]

theorem hexColumn_text_len (res : List (Nat × Nat)) : ∀ (addr : Nat) (c : List Nat),
    (∀ b ∈ c, b < 256) →
    (lineText (columnSpans hexSpanOf res addr c)).length = 3 * c.length := by
  intro addr c
  induction c generalizing addr with
  | nil =>
    intro _
    rfl
  | cons b bs ih =>
    intro hb
    have hhead : b < 256 := hb b (List.mem_cons_self _ _)
    have htail : ∀ x ∈ bs, x < 256 := fun x hx => hb x (List.mem_cons_of_mem _ hx)
    simp only [columnSpans, lineText, List.map_cons, List.flatten_cons, List.length_append]
    have := ih (addr + 1) htail
    simp only [lineText] at this
    rw [this, hexSpanOf_text_len hhead]
    simp [Nat.mul_succ]
    omega

theorem hexColumn_countP (res : List (Nat × Nat)) : ∀ (addr : Nat) (c : List Nat),
    (∀ b ∈ c, b < 256) →
    (columnSpans hexSpanOf res addr c).countP (fun sp => sp.text.length == 1) = 0 := by
  intro addr c
  induction c generalizing addr with
  | nil =>
    intro _
    rfl
  | cons b bs ih =>
    intro hb
    have hhead : b < 256 := hb b (List.mem_cons_self _ _)
    have htail : ∀ x ∈ bs, x < 256 := fun x hx => hb x (List.mem_cons_of_mem _ hx)
    simp only [columnSpans, List.countP_cons]
    rw [ih (addr + 1) htail]
    simp [hexSpanOf_text_len hhead]

theorem asciiColumn_text_len (res : List (Nat × Nat)) : ∀ (addr : Nat) (c : List Nat),
    (lineText (columnSpans asciiSpanOf res addr c)).length = c.length := by
  intro addr c
  induction c generalizing addr with
  | nil => rfl
  | cons b bs ih =>
    simp only [columnSpans, lineText, List.map_cons, List.flatten_cons, List.length_append]
    have := ih (addr + 1)
    simp only [lineText] at this
    rw [this]
    simp [asciiSpanOf]
    omega

theorem asciiColumn_countP (res : List (Nat × Nat)) : ∀ (addr : Nat) (c : List Nat),
    (columnSpans asciiSpanOf res addr c).countP (fun sp => sp.text.length == 1) = c.length := by
  intro addr c
  induction c generalizing addr with
  | nil => rfl
  | cons b bs ih =>
    simp only [columnSpans, List.countP_cons]
    rw [ih (addr + 1)]
    simp [asciiSpanOf]

theorem chunkListAux_mem {w : Nat} (hw : 0 < w) : ∀ (fuel : Nat) (l c : List Nat),
    l.length ≤ fuel → c ∈ chunkListAux w fuel l →
    c.length ≤ w ∧ c ≠ [] ∧ ∀ b ∈ c, b ∈ l := by
  intro fuel
  induction fuel with
  | zero =>
    intro l c hl hc
    have : l = [] := List.length_eq_zero.mp (Nat.le_zero.mp hl)
    subst this
    simp [chunkListAux] at hc
  | succ fuel ih =>
    intro l c hl hc
    cases l with
    | nil => simp [chunkListAux] at hc
    | cons x xs =>
      rw [chunkListAux] at hc
      rcases List.mem_cons.mp hc with hh | ht
      · subst hh
        refine ⟨by simp, ?_, fun b hb => List.take_subset _ _ hb⟩
        intro hnil
        have hlen0 := congrArg List.length hnil
        simp at hlen0
        omega
      · have hlen : ((x :: xs).drop w).length ≤ fuel := by
          simp
          simp at hl
          omega
        have := ih _ c hlen ht
        exact ⟨this.1, this.2.1, fun b hb => List.drop_subset _ _ (this.2.2 b hb)⟩
      · simp

theorem rowsFrom_length (W : Nat) (res : List (Nat × Nat)) (sa : Nat) :
    ∀ (i : Nat) (cs : List (List Nat)), (rowsFrom W res sa i cs).length = cs.length := by
  intro i cs
  induction cs generalizing i with
  | nil => rfl
  | cons c cs ih => simp [rowsFrom, ih]

theorem rowsFrom_getElem? (W : Nat) (res : List (Nat × Nat)) (sa : Nat) :
    ∀ (i k : Nat) (cs : List (List Nat)),
    (rowsFrom W res sa i cs)[k]? =
      cs[k]?.map (fun c => formatRow W res (sa + (i + k) * W) c) := by
  intro i k cs
  induction cs generalizing i k with
  | nil => simp [rowsFrom]
  | cons c cs ih =>
    cases k with
    | zero => simp [rowsFrom]
    | succ k =>
      simp only [rowsFrom, List.getElem?_cons_succ]
      rw [ih (i + 1) k]
      have harith : i + 1 + k = i + (k + 1) := by omega
      rw [harith]

theorem formatRow_tail_measure (W : Nat) (res : List (Nat × Nat)) (addr : Nat)
    (c : List Nat) (hlen : c.length ≤ W) (hb : ∀ b ∈ c, b < 256) :
    (lineText ((formatRow W res addr c).drop 1)).length = 2 + 3 * W + c.length ∧
    ((formatRow W res addr c).drop 1).countP (fun sp => sp.text.length == 1) = c.length := by
  have hdrop : (formatRow W res addr c).drop 1 =
      columnSpans hexSpanOf res addr c ++
      (if c.length < W then
        [Span.mk (List.replicate (3 * (W - c.length)) ' ') {}]
      else []) ++
      [Span.mk [' ', ' '] {}] ++
      columnSpans asciiSpanOf res addr c := by
    rfl
  rw [hdrop]
  constructor
  · rw [lineText_append, lineText_append, lineText_append]
    simp only [List.length_append]
    rw [hexColumn_text_len res addr c hb, asciiColumn_text_len res addr c]
    by_cases hcw : c.length < W
    · simp only [if_pos hcw]
      simp [lineText]
      omega
    · simp only [if_neg hcw]
      simp [lineText]
      omega
  · simp only [List.countP_append]
    rw [hexColumn_countP res addr c hb, asciiColumn_countP res addr c]
    by_cases hcw : c.length < W
    · simp only [if_pos hcw]
      have h31 : ¬ (3 * (W - c.length) = 1) := by omega
      simp [List.countP_cons, h31]
    · simp only [if_neg hcw]
      simp [List.countP_cons]

/-! ### Claim theorems -/

/-- C1: the claim says searching a `WindowedFile` (Lazy) source yields the
same match ranges as searching the identical content held in memory, the
domain being the full file content.  The code violates this:
`ParsedFile::data` returns the empty slice for `Lazy`, so the search scans
an empty domain and finds nothing, while the identical `InMemory` content
yields the match `[0, 4)`.  This theorem evaluates the code at the failing
input (file bytes "AAAA", ASCII query "AAAA"). -/
theorem C1_windowed_search_empty_domain :
    (App.perform_search appInMemory).search_results = [(0, 4)] ∧
    (App.perform_search appWindowed).search_results = [] ∧
    appWindowed.parsed_file.data = [] ∧
    appWindowed.file_size = 4 ∧
    appInMemory.parsed_file.data = [65, 65, 65, 65] := by decide

/-- C2: the search loop records `[position, position + pattern length)` at
each match, resumes strictly after the match end, and returns ranges that
are leftmost-first and mutually non-overlapping (every occurrence of the
pattern starts inside some reported range) and contained in
`[0, length of the domain)`; on the buffer "AAAAB AAAAB" (bytes 65/66) with
pattern "AAAA" it reports exactly `[0,4)` and `[5,9)`. -/
theorem C2_search_scan_semantics (data pat : List Nat) (hp : pat ≠ []) :
    (∀ r ∈ findAll data pat,
        r.2 = r.1 + pat.length ∧ matchAt data pat r.1 = true ∧ r.2 ≤ data.length) ∧
    List.Pairwise (fun a b : Nat × Nat => a.2 ≤ b.1) (findAll data pat) ∧
    (∀ p, matchAt data pat p = true → ∃ r ∈ findAll data pat, r.1 ≤ p ∧ p < r.2) ∧
    findAll [65, 65, 65, 65, 66, 65, 65, 65, 65, 66] [65, 65, 65, 65] = [(0, 4), (5, 9)] := by
  refine ⟨?_, ?_, ?_, by decide⟩
  · intro r hr
    have h := searchLoop_mem _ _ r hr
    have hb := matchAt_bound hp h.2.2
    exact ⟨h.2.1, h.2.2, by omega⟩
  · exact searchLoop_pairwise _ _
  · intro p hm
    exact searchLoop_cover hp _ 0 p (by omega) (Nat.zero_le _) hm

/-- Witness for C2 at the concrete buffer and pattern from the spec. -/
theorem C2_search_scan_semantics_witness :
    findAll [65, 65, 65, 65, 66, 65, 65, 65, 65, 66] [65, 65, 65, 65] = [(0, 4), (5, 9)] :=
  (C2_search_scan_semantics [65, 65, 65, 65, 66, 65, 65, 65, 65, 66]
    [65, 65, 65, 65] (by decide)).2.2.2

/-- C3: the claim says an invalid hex query leaves the invalid-hex
condition in the message slot.  The code violates this: the `Err` arm of
`perform_search` sets the invalid-hex message but does not return, so the
trailing empty-result check overwrites it with the no-matches message.
Evaluated at the failing input: hex query "4" (odd digit count) with a
leftover match set; the scan is skipped and the match set cleared, but the
final message is the no-matches message, not the invalid-hex one. -/
theorem C3_invalid_hex_message_overwritten :
    (App.perform_search appHexOdd).search_results = [] ∧
    (App.perform_search appHexOdd).message = some "No matches found for the search query." ∧
    (App.perform_search appHexOdd).message ≠ some "Invalid hexadecimal input for search." ∧
    hexDecode (appHexOdd.input_buffer.filter (fun c => c ≠ ' ')) = none := by decide

/-- C4: the claim says an empty query reports the empty-query condition
and clears the match set, including when triggered through the event
interface.  The direct call conforms (first two conjuncts), but the event
path violates it: on Enter in Search mode with an empty buffer,
`handle_event` never calls `perform_search` (despite its comment), leaving
the message unset and the previous match set intact. -/
theorem C4_event_empty_query_divergence :
    (App.perform_search appSearchEnterEmpty).message = some "Search query cannot be empty." ∧
    (App.perform_search appSearchEnterEmpty).search_results = [] ∧
    (handle_event (Event.Key KeyCode.Enter) appSearchEnterEmpty).2.message = none ∧
    (handle_event (Event.Key KeyCode.Enter) appSearchEnterEmpty).2.search_results = [(0, 1)] ∧
    (handle_event (Event.Key KeyCode.Enter) appSearchEnterEmpty).2.mode = AppMode.Normal := by
  decide

/-- C8: for positive row width, `max_scroll_offset` equals the ceiling of
`file_size / bytes_per_line` minus one (in truncated natural subtraction),
and equals zero for an empty file. -/
theorem C8_max_row_index_spec (a : App) (hW : 0 < a.bytes_per_line) :
    a.max_scroll_offset = (a.file_size + a.bytes_per_line - 1) / a.bytes_per_line - 1 ∧
    (a.file_size = 0 → a.max_scroll_offset = 0) := by
  refine ⟨max_scroll_offset_eq a, fun h0 => ?_⟩
  rw [max_scroll_offset_eq a, h0]
  have hz : (0 + a.bytes_per_line - 1) / a.bytes_per_line = 0 :=
    Nat.div_eq_of_lt (by omega)
  rw [hz]

/-- Witness for C8 on a concrete state (file size 4, 16 bytes per line). -/
theorem C8_max_row_index_spec_witness :
    appInMemory.max_scroll_offset =
      (appInMemory.file_size + appInMemory.bytes_per_line - 1) / appInMemory.bytes_per_line - 1 ∧
    (appInMemory.file_size = 0 → appInMemory.max_scroll_offset = 0) :=
  C8_max_row_index_spec appInMemory (by decide)

/-- C10: `scroll_up` and `scroll_down` change at most `scroll_offset`;
every other field of the state is preserved. -/
theorem C10_scroll_frame_effect (a : App) :
    (a.scroll_up.parsed_file = a.parsed_file ∧
     a.scroll_up.file_size = a.file_size ∧
     a.scroll_up.bytes_per_line = a.bytes_per_line ∧
     a.scroll_up.search_results = a.search_results ∧
     a.scroll_up.search_type = a.search_type ∧
     a.scroll_up.input_buffer = a.input_buffer ∧
     a.scroll_up.mode = a.mode ∧
     a.scroll_up.theme = a.theme ∧
     a.scroll_up.message = a.message ∧
     a.scroll_up.running = a.running ∧
     a.scroll_up.file_path = a.file_path) ∧
    (a.scroll_down.parsed_file = a.parsed_file ∧
     a.scroll_down.file_size = a.file_size ∧
     a.scroll_down.bytes_per_line = a.bytes_per_line ∧
     a.scroll_down.search_results = a.search_results ∧
     a.scroll_down.search_type = a.search_type ∧
     a.scroll_down.input_buffer = a.input_buffer ∧
     a.scroll_down.mode = a.mode ∧
     a.scroll_down.theme = a.theme ∧
     a.scroll_down.message = a.message ∧
     a.scroll_down.running = a.running ∧
     a.scroll_down.file_path = a.file_path) := by
  unfold App.scroll_up App.scroll_down
  constructor <;> split <;> simp

/-- C5: `jump_to_offset` parses the buffer as base-16; on success it sets
`scroll_offset = min(offset / bytes_per_line, max_scroll_offset)`, so the
resulting row start satisfies `row_start <= offset < row_start + width`
for in-file offsets and clamps to the last row otherwise; on parse failure
it reports the invalid-offset message and leaves `scroll_offset`
unchanged. -/
theorem C5_jump_to_offset_spec (a : App) (hW : 0 < a.bytes_per_line) :
    (∀ offset, parseHexNat a.input_buffer = some offset →
      a.jump_to_offset.scroll_offset =
        min (offset / a.bytes_per_line) a.max_scroll_offset ∧
      (offset < a.file_size →
        a.jump_to_offset.scroll_offset * a.bytes_per_line ≤ offset ∧
        offset < a.jump_to_offset.scroll_offset * a.bytes_per_line + a.bytes_per_line) ∧
      (a.file_size ≤ offset →
        a.jump_to_offset.scroll_offset = a.max_scroll_offset)) ∧
    (parseHexNat a.input_buffer = none →
      a.jump_to_offset.message = some "Invalid hexadecimal offset input." ∧
      a.jump_to_offset.scroll_offset = a.scroll_offset) := by
  constructor
  · intro offset hparse
    have hval : a.jump_to_offset.scroll_offset =
        min (offset / a.bytes_per_line) a.max_scroll_offset := by
      simp [App.jump_to_offset, hparse]
    refine ⟨hval, fun hlt => ?_, fun hge => ?_⟩
    · have hle := max_scroll_offset_lt_of_lt_size a hW hlt
      have hmin : min (offset / a.bytes_per_line) a.max_scroll_offset =
          offset / a.bytes_per_line := Nat.min_eq_left hle
      rw [hval, hmin]
      have hdm := Nat.div_add_mod offset a.bytes_per_line
      have hmod := Nat.mod_lt offset hW
      constructor
      · rw [Nat.mul_comm]
        omega
      · rw [Nat.mul_comm]
        omega
    · have hle := max_scroll_offset_le_of_size_le a hW hge
      rw [hval]
      omega
  · intro hparse
    constructor <;> simp [App.jump_to_offset, hparse]

/-- Witness for C5 on a concrete state: buffer "10" (hex for 16) over a
100-byte file with 16 bytes per line. -/
theorem C5_jump_to_offset_spec_witness :
    (∀ offset, parseHexNat appJump.input_buffer = some offset →
      appJump.jump_to_offset.scroll_offset =
        min (offset / appJump.bytes_per_line) appJump.max_scroll_offset ∧
      (offset < appJump.file_size →
        appJump.jump_to_offset.scroll_offset * appJump.bytes_per_line ≤ offset ∧
        offset < appJump.jump_to_offset.scroll_offset * appJump.bytes_per_line +
          appJump.bytes_per_line) ∧
      (appJump.file_size ≤ offset →
        appJump.jump_to_offset.scroll_offset = appJump.max_scroll_offset)) ∧
    (parseHexNat appJump.input_buffer = none →
      appJump.jump_to_offset.message = some "Invalid hexadecimal offset input." ∧
      appJump.jump_to_offset.scroll_offset = appJump.scroll_offset) :=
  C5_jump_to_offset_spec appJump (by decide)

/-- C6: starting from any in-range `scroll_offset`, scroll, clamp and jump
keep `scroll_offset` within `[0, max_scroll_offset]` (the lower bound is
inherent in the `Nat` model); `scroll_up` at 0 and `scroll_down` at the
maximum are exact no-ops, and away from the bounds they move by exactly
one row. -/
theorem C6_scroll_bounds_spec (a : App) (h : a.scroll_offset ≤ a.max_scroll_offset) :
    (a.scroll_up.scroll_offset ≤ a.scroll_up.max_scroll_offset ∧
     a.scroll_down.scroll_offset ≤ a.scroll_down.max_scroll_offset ∧
     a.clamp_scroll_offset.scroll_offset ≤ a.clamp_scroll_offset.max_scroll_offset ∧
     a.jump_to_offset.scroll_offset ≤ a.jump_to_offset.max_scroll_offset) ∧
    (a.scroll_offset = 0 → a.scroll_up = a) ∧
    (a.scroll_offset = a.max_scroll_offset → a.scroll_down = a) ∧
    (0 < a.scroll_offset → a.scroll_up.scroll_offset = a.scroll_offset - 1) ∧
    (a.scroll_offset < a.max_scroll_offset →
      a.scroll_down.scroll_offset = a.scroll_offset + 1) := by
  have hup : a.scroll_up.max_scroll_offset = a.max_scroll_offset := by
    unfold App.scroll_up
    split <;> rfl
  have hdown : a.scroll_down.max_scroll_offset = a.max_scroll_offset := by
    unfold App.scroll_down
    split <;> rfl
  have hclamp : a.clamp_scroll_offset.max_scroll_offset = a.max_scroll_offset := by
    unfold App.clamp_scroll_offset
    split <;> rfl
  refine ⟨⟨?_, ?_, ?_, ?_⟩, ?_, ?_, ?_, ?_⟩
  · rw [hup]
    unfold App.scroll_up
    split
    · simp
      omega
    · exact h
  · rw [hdown]
    unfold App.scroll_down
    split
    · simp
      omega
    · exact h
  · rw [hclamp]
    unfold App.clamp_scroll_offset
    split
    · simp
    · exact h
  · cases hparse : parseHexNat a.input_buffer with
    | some offset =>
      simp [App.jump_to_offset, hparse]
      right
      rfl
    | none => simpa [App.jump_to_offset, hparse] using h
  · intro h0
    unfold App.scroll_up
    rw [if_neg (by omega)]
  · intro hmax
    unfold App.scroll_down
    rw [if_neg (by omega)]
  · intro hpos
    unfold App.scroll_up
    rw [if_pos (by omega)]
  · intro hlt
    unfold App.scroll_down
    rw [if_pos hlt]

/-- Witness for C6 on a concrete in-range state. -/
theorem C6_scroll_bounds_spec_witness :
    (appInMemory.scroll_up.scroll_offset ≤ appInMemory.scroll_up.max_scroll_offset ∧
     appInMemory.scroll_down.scroll_offset ≤ appInMemory.scroll_down.max_scroll_offset ∧
     appInMemory.clamp_scroll_offset.scroll_offset ≤
       appInMemory.clamp_scroll_offset.max_scroll_offset ∧
     appInMemory.jump_to_offset.scroll_offset ≤
       appInMemory.jump_to_offset.max_scroll_offset) ∧
    (appInMemory.scroll_offset = 0 → appInMemory.scroll_up = appInMemory) ∧
    (appInMemory.scroll_offset = appInMemory.max_scroll_offset →
      appInMemory.scroll_down = appInMemory) ∧
    (0 < appInMemory.scroll_offset →
      appInMemory.scroll_up.scroll_offset = appInMemory.scroll_offset - 1) ∧
    (appInMemory.scroll_offset < appInMemory.max_scroll_offset →
      appInMemory.scroll_down.scroll_offset = appInMemory.scroll_offset + 1) :=
  C6_scroll_bounds_spec appInMemory (by decide)

/-- C7: `get_chunk` returns exactly the file bytes in
`[start, min(start + width * rows, file_size))` with
`start = offset * width`, for both the in-memory and the error-free
windowed variant; it returns the empty sequence (not an error) whenever
`start >= file_size`, and an injected seek or read failure on the
windowed path also yields the empty sequence. -/
theorem C7_get_chunk_window_spec (contents : List Nat) (offset W lines : Nat) :
    ((ParsedFile.Generic contents).get_chunk offset W lines =
      byteSlice contents (offset * W) (min (offset * W + W * lines) contents.length)) ∧
    ((ParsedFile.Lazy contents false false).get_chunk offset W lines =
      byteSlice contents (offset * W) (min (offset * W + W * lines) contents.length)) ∧
    (contents.length ≤ offset * W →
      (ParsedFile.Generic contents).get_chunk offset W lines = [] ∧
      ∀ se re : Bool, (ParsedFile.Lazy contents se re).get_chunk offset W lines = []) ∧
    (∀ se re : Bool, se = true ∨ re = true →
      (ParsedFile.Lazy contents se re).get_chunk offset W lines = []) := by
  have hgen : (ParsedFile.Generic contents).get_chunk offset W lines =
      byteSlice contents (offset * W) (min (offset * W + W * lines) contents.length) := by
    simp only [ParsedFile.get_chunk, byteSlice]
    split
    · rename_i hge
      have hdrop : contents.drop (offset * W) = [] := List.drop_eq_nil_of_le hge
      rw [hdrop, List.take_nil]
    · rfl
  have hlazy : (ParsedFile.Lazy contents false false).get_chunk offset W lines =
      byteSlice contents (offset * W) (min (offset * W + W * lines) contents.length) := by
    simp only [ParsedFile.get_chunk, readFileChunk, byteSlice, Bool.false_eq_true,
      if_false]
    rw [List.take_eq_take]
    simp [List.length_drop]
    omega
  refine ⟨hgen, hlazy, fun hge => ⟨?_, fun se re => ?_⟩, fun se re hse => ?_⟩
  · rw [hgen]
    simp only [byteSlice]
    rw [List.drop_eq_nil_of_le hge, List.take_nil]
  · cases se <;> cases re <;>
      simp [ParsedFile.get_chunk, readFileChunk, List.drop_eq_nil_of_le hge]
  · cases se <;> cases re
    · simp at hse
    · simp [ParsedFile.get_chunk, readFileChunk]
    · simp [ParsedFile.get_chunk, readFileChunk]
    · simp [ParsedFile.get_chunk, readFileChunk]

/-- Witness for C7: a 5-byte file, row width 2, offset row 1, two rows. -/
theorem C7_get_chunk_window_spec_witness :
    (((ParsedFile.Generic [1, 2, 3, 4, 5]).get_chunk 1 2 2 =
      byteSlice [1, 2, 3, 4, 5] (1 * 2) (min (1 * 2 + 2 * 2) ([1, 2, 3, 4, 5] : List Nat).length)) ∧
    ((ParsedFile.Lazy [1, 2, 3, 4, 5] false false).get_chunk 1 2 2 =
      byteSlice [1, 2, 3, 4, 5] (1 * 2) (min (1 * 2 + 2 * 2) ([1, 2, 3, 4, 5] : List Nat).length)) ∧
    (([1, 2, 3, 4, 5] : List Nat).length ≤ 1 * 2 →
      (ParsedFile.Generic [1, 2, 3, 4, 5]).get_chunk 1 2 2 = [] ∧
      ∀ se re : Bool, (ParsedFile.Lazy [1, 2, 3, 4, 5] se re).get_chunk 1 2 2 = []) ∧
    (∀ se re : Bool, se = true ∨ re = true →
      (ParsedFile.Lazy [1, 2, 3, 4, 5] se re).get_chunk 1 2 2 = [])) ∧
    (ParsedFile.Generic [1, 2, 3, 4, 5]).get_chunk 1 2 2 = [3, 4, 5] :=
  ⟨C7_get_chunk_window_spec [1, 2, 3, 4, 5] 1 2 2, by decide⟩

/-- C9 counterexample: the claim as stated ("exactly one display row per
row_width-sized chunk of the window", for every byte window) fails at the
two-byte window `[0, 0]` with row width 1 and a one-line budget: the
window has two chunks but `format_hex_dump` takes at most `lines` rows and
produces only one. -/
theorem C9_formatter_rows_counterexample :
    (chunkList 1 [0, 0]).length = 2 ∧
    (formatHexDump [0, 0] 0 1 1 []).length = 1 := by decide

/-- C9 amended: when the line budget `lines` is at least the number of
chunks (as holds for every caller, which fetches at most `lines` rows of
bytes), the formatter produces exactly one display row per
`row_width`-sized chunk — zero rows for an empty window — and in every row
the text after the address span is `2 + 3 * row_width + chunk length`
characters long (hex column padded to `row_width` three-character
byte-slots plus the two-space gutter) while exactly `chunk length` of its
spans are single characters (the ASCII column renders one character per
byte, unpadded). -/
theorem C9_formatter_rows_amended (data : List Nat) (off lines W : Nat)
    (res : List (Nat × Nat)) (hW : 0 < W)
    (hlines : (chunkList W data).length ≤ lines)
    (hdata : ∀ b ∈ data, b < 256) :
    (formatHexDump data off lines W res).length = (chunkList W data).length ∧
    (data = [] → formatHexDump data off lines W res = []) ∧
    (∀ (k : Nat) (row : List Span) (c : List Nat),
      (formatHexDump data off lines W res)[k]? = some row →
      (chunkList W data)[k]? = some c →
      (lineText (row.drop 1)).length = 2 + 3 * W + c.length ∧
      (row.drop 1).countP (fun sp => sp.text.length == 1) = c.length) := by
  refine ⟨?_, ?_, ?_⟩
  · rw [formatHexDump, rowsFrom_length, List.length_take]
    omega
  · intro h0
    subst h0
    simp [formatHexDump, chunkList, chunkListAux, rowsFrom]
  · intro k row c hrow hchunk
    have hk : k < (chunkList W data).length := by
      rcases List.getElem?_eq_some.mp hchunk with ⟨hlt, _⟩
      exact hlt
    have htake : ((chunkList W data).take lines)[k]? = (chunkList W data)[k]? := by
      rw [List.getElem?_take, if_pos (by omega : k < lines)]
    rw [formatHexDump, rowsFrom_getElem? W res (off * W) 0 k] at hrow
    rw [htake, hchunk] at hrow
    simp only [Option.map_some', Option.some.injEq] at hrow
    have hmem : c ∈ chunkList W data := by
      rcases List.getElem?_eq_some.mp hchunk with ⟨hlt2, hc⟩
      exact hc ▸ List.getElem_mem hlt2
    have hfacts := chunkListAux_mem hW data.length data c (Nat.le_refl _) hmem
    have hb : ∀ b ∈ c, b < 256 := fun b hbmem => hdata b (hfacts.2.2 b hbmem)
    have hmeasure := formatRow_tail_measure W res (off * W + (0 + k) * W) c hfacts.1 hb
    rw [← hrow]
    exact hmeasure

/-- Witness for the amended C9: the spec's 3-byte window at row width 16,
one line. -/
theorem C9_formatter_rows_amended_witness :
    (formatHexDump [65, 66, 67] 0 1 16 []).length = (chunkList 16 [65, 66, 67]).length ∧
    (([65, 66, 67] : List Nat) = [] → formatHexDump [65, 66, 67] 0 1 16 [] = []) ∧
    (∀ (k : Nat) (row : List Span) (c : List Nat),
      (formatHexDump [65, 66, 67] 0 1 16 [])[k]? = some row →
      (chunkList 16 [65, 66, 67])[k]? = some c →
      (lineText (row.drop 1)).length = 2 + 3 * 16 + c.length ∧
      (row.drop 1).countP (fun sp => sp.text.length == 1) = c.length) :=
  C9_formatter_rows_amended [65, 66, 67] 0 1 16 [] (by decide) (by decide) (by decide)
